import Mathlib

/-! Verification of the file-organization engine and its Streamlit front end.

The repository ships the front end (`app.py`) which calls
`organize_files(root, mode, check_duplicates, emit_progress)` from the module
`organizer`; the organizer module itself is not part of the source tree, so the
engine below is modelled from the specification (classifier, content hasher,
duplicate tracker, path planner, organizer engine, run report).  The front-end
definitions (`uiInvokesEngine`, `renderTotals`) are translated directly from
`app.py`. -/

namespace FileOrg

/-- Decimal digit (0..9) rendered as a character. -/
def digitChar : Nat → Char
  | 0 => '0'
  | 1 => '1'
  | 2 => '2'
  | 3 => '3'
  | 4 => '4'
  | 5 => '5'
  | 6 => '6'
  | 7 => '7'
  | 8 => '8'
  | _ => '9'

/-- Numeric value of a decimal digit character. -/
def charVal (c : Char) : Nat := c.toNat - 48

/-- Big-endian decimal digits of a number, with explicit fuel (fuel `n+1`
always suffices for `n`). -/
def natDigitsAux : Nat → Nat → List Char
  | _, 0 => []
  | n, fuel + 1 =>
    if n < 10 then [digitChar n]
    else natDigitsAux (n / 10) fuel ++ [digitChar (n % 10)]

/-- Big-endian decimal digits of a number. -/
def natDigits (n : Nat) : List Char := natDigitsAux n (n + 1)

/-- Decimal rendering of a number, as used in the planner's ` (k)` suffix. -/
def natToStr (n : Nat) : String := ⟨natDigits n⟩

/-- Decimal value of a digit string (big-endian). -/
def valAux (l : List Char) : Nat := l.foldl (fun a c => 10 * a + charVal c) 0

/-- Modelled from the spec: the planner's candidate base name for attempt `k`
(`name`, `name (1)`, `name (2)`, ...). -/
def candBase (base : String) : Nat → String
  | 0 => base
  | k + 1 => base ++ " (" ++ natToStr (k + 1) ++ ")"

/-- Modelled from the spec: the planner's candidate file name for attempt `k`
(`name.ext`, `name (1).ext`, `name (2).ext`, ...). -/
def candName (base ext : String) (k : Nat) : String := candBase base k ++ ext

/-- Modelled from the spec: try attempts `k, k+1, ...` (at most `fuel` of them)
and return the first attempt index whose candidate name is not taken. -/
def planNameAux (existing : List String) (base ext : String) : Nat → Nat → Option Nat
  | 0, _ => none
  | fuel + 1, k =>
    if candName base ext k ∈ existing then planNameAux existing base ext fuel (k + 1)
    else some k

/-- Modelled from the spec: PathPlanner collision policy.  Given the names
already present at the destination directory, pick the first disambiguation
index whose candidate does not collide.  The number of attempts is bounded;
exhaustion (`none`) is treated as a per-file move error by the engine. -/
def planK (existing : List String) (base ext : String) : Option Nat :=
  planNameAux existing base ext (existing.length + 1) 0

/-- Modelled from the spec: the planned collision-free destination file name. -/
def planName (existing : List String) (base ext : String) : Option String :=
  (planK existing base ext).map (fun k => candName base ext k)

/-- Modelled from the spec: the fixed category taxonomy
(Images, Documents, Videos, Audio, Archives, Code, Others). -/
inductive Category
  | Images
  | Documents
  | Videos
  | Audio
  | Archives
  | Code
  | Others
deriving DecidableEq

/-- Folder name of a category. -/
def categoryName : Category → String
  | .Images => "Images"
  | .Documents => "Documents"
  | .Videos => "Videos"
  | .Audio => "Audio"
  | .Archives => "Archives"
  | .Code => "Code"
  | .Others => "Others"

/-- ASCII lower-casing of one character. -/
def lowerChar (c : Char) : Char :=
  if 65 ≤ c.toNat ∧ c.toNat ≤ 90 then Char.ofNat (c.toNat + 32) else c

/-- ASCII lower-casing of a string (case-insensitive extension matching). -/
def lowerStr (s : String) : String := ⟨s.data.map lowerChar⟩

/-- Modelled from the spec: static extension table for Images. -/
def imageExts : List String := [".jpg", ".jpeg", ".png", ".gif", ".bmp", ".svg", ".webp"]

/-- Modelled from the spec: static extension table for Documents. -/
def documentExts : List String :=
  [".pdf", ".doc", ".docx", ".txt", ".xls", ".xlsx", ".ppt", ".pptx", ".csv", ".md"]

/-- Modelled from the spec: static extension table for Videos. -/
def videoExts : List String := [".mp4", ".avi", ".mkv", ".mov", ".wmv"]

/-- Modelled from the spec: static extension table for Audio. -/
def audioExts : List String := [".mp3", ".wav", ".flac", ".aac", ".ogg"]

/-- Modelled from the spec: static extension table for Archives. -/
def archiveExts : List String := [".zip", ".rar", ".7z", ".tar", ".gz"]

/-- Modelled from the spec: static extension table for Code. -/
def codeExts : List String := [".py", ".js", ".html", ".css", ".java", ".c", ".cpp", ".json"]

/-- All extensions the classifier knows. -/
def knownExts : List String :=
  imageExts ++ documentExts ++ videoExts ++ audioExts ++ archiveExts ++ codeExts

/-- Modelled from the spec: `Classify(extension) -> Category`, a pure total
function over a static table with case-insensitive matching; unknown or empty
extensions map to Others. -/
def classify (ext : String) : Category :=
  let e := lowerStr ext
  if e ∈ imageExts then .Images
  else if e ∈ documentExts then .Documents
  else if e ∈ videoExts then .Videos
  else if e ∈ audioExts then .Audio
  else if e ∈ archiveExts then .Archives
  else if e ∈ codeExts then .Code
  else .Others

/-- Modelled from the spec: OrganizeMode (`Category Only`, `Category / Year`,
`Category / Year-Month` in the front end's select box). -/
inductive Mode
  | categoryOnly
  | categoryYear
  | categoryYearMonth
deriving DecidableEq

/-- Modelled from the spec: a regular file as seen by the engine.  The path is
kept relative to the run's root, split into the containing directory
components, the base name and the extension (the on-disk name is
`base ++ ext`).  Content bytes double as the content digest (two files are
duplicates exactly when their bytes agree).  `readFails` / `moveFails` model
the per-file filesystem faults of the error taxonomy. -/
structure FSFile where
  dir : List String
  base : String
  ext : String
  content : List Nat
  year : Nat
  month : Nat
  readFails : Bool
  moveFails : Bool
deriving DecidableEq

/-- On-disk file name. -/
def fname (f : FSFile) : String := f.base ++ f.ext

/-- File size in bytes. -/
def fsize (f : FSFile) : Nat := f.content.length

/-- Reserved folder into which duplicate copies are quarantined. -/
def dupDirName : String := "Duplicates"

/-- Modelled from the spec: a file is enumerated as a source unless it already
sits inside the reserved Duplicates folder. -/
def enumerated (f : FSFile) : Bool := !(decide (f.dir.head? = some dupDirName))

/-- Two-digit month rendering for the `year-month` bucket. -/
def monthStr (m : Nat) : String := (if m < 10 then "0" else "") ++ natToStr m

/-- Modelled from the spec: destination directory of a file for the chosen
mode (`category`, `category/year` or `category/year-month`). -/
def destDir (mode : Mode) (f : FSFile) : List String :=
  let c := categoryName (classify f.ext)
  match mode with
  | .categoryOnly => [c]
  | .categoryYear => [c, natToStr f.year]
  | .categoryYearMonth => [c, natToStr f.year ++ "-" ++ monthStr f.month]

/-- Names of the files currently stored in directory `dd`. -/
def namesAt (dd : List String) (fs : List FSFile) : List String :=
  (fs.filter (fun g => g.dir = dd)).map fname

/-- Modelled from the spec: DuplicateTracker.Observe.  First observation of a
digest reports `false` and records the digest; later observations of the same
digest report `true`. -/
def observe (seen : List (List Nat)) (d : List Nat) : Bool × List (List Nat) :=
  if d ∈ seen then (true, seen) else (false, d :: seen)

/-- Outcome of one attempted relocation. -/
inductive MoveResult
  | moved (f' : FSFile)
  | noop
  | failed
deriving DecidableEq

/-- Modelled from the spec: plan a collision-free name at directory `dd`
(collisions checked against every other file) and relocate `f` there.  If the
planned destination is the file's current location the move is a no-op; a
planner exhaustion or a filesystem fault yields a per-file error. -/
def relocate (others : List FSFile) (dd : List String) (f : FSFile) : MoveResult :=
  match planK (namesAt dd others) f.base f.ext with
  | none => .failed
  | some k =>
    if { f with dir := dd, base := candBase f.base k } = f then .noop
    else if f.moveFails = true then .failed
    else .moved { f with dir := dd, base := candBase f.base k }

/-- Render a directory path for log lines. -/
def joinDirs : List String → String
  | [] => ""
  | [d] => d
  | d :: rest => d ++ "/" ++ joinDirs rest

/-- Per-file result of the engine's step 3: the (possibly relocated) file, the
log line, the category counter to bump (for successfully kept files), the
increments of the duplicate/space/move counters, and the updated digest set. -/
structure StepOut where
  newFile : FSFile
  logLine : String
  catInc : Option String
  dupInc : Nat
  savedInc : Nat
  moveInc : Nat
  seenOut : List (List Nat)

/-- Modelled from the spec: process one file.  Read faults during hashing skip
the file with an error line; a duplicate digest routes the file into the
Duplicates folder and accounts its size as space saved; otherwise the file is
moved to its category destination (no-op when already there); any move fault
is logged and the file is left in place. -/
def stepFile (mode : Mode) (dd : Bool) (seen : List (List Nat))
    (others : List FSFile) (f : FSFile) : StepOut :=
  if dd = true ∧ f.readFails = true then
    ⟨f, "ERROR (read): " ++ fname f, none, 0, 0, 0, seen⟩
  else if dd = true ∧ (observe seen f.content).1 = true then
    match relocate others [dupDirName] f with
    | .moved f' => ⟨f', "DUPLICATE: " ++ fname f ++ " -> " ++ dupDirName, none, 1, fsize f, 1, seen⟩
    | .noop => ⟨f, "DUPLICATE (in place): " ++ fname f, none, 1, fsize f, 0, seen⟩
    | .failed => ⟨f, "ERROR (move): " ++ fname f, none, 0, 0, 0, seen⟩
  else
    let seen' := if dd = true then (observe seen f.content).2 else seen
    match relocate others (destDir mode f) f with
    | .moved f' =>
      ⟨f', "MOVED: " ++ fname f ++ " -> " ++ joinDirs (destDir mode f),
        some (categoryName (classify f.ext)), 0, 0, 1, seen'⟩
    | .noop =>
      ⟨f, "OK (in place): " ++ fname f,
        some (categoryName (classify f.ext)), 0, 0, 0, seen'⟩
    | .failed => ⟨f, "ERROR (move): " ++ fname f, none, 0, 0, 0, seen'⟩

/-- Bump a category counter in the association list of per-category counts. -/
def bumpCat (cats : List (String × Nat)) (c : String) : List (String × Nat) :=
  match cats with
  | [] => [(c, 1)]
  | (k, v) :: rest => if k = c then (k, v + 1) :: rest else (k, v) :: bumpCat rest c

/-- Mutable state of one engine run: processed files, digest set, log lines
(most recent first), counters and the trace of progress callbacks
(most recent first). -/
structure RunState where
  done : List FSFile
  seen : List (List Nat)
  logs : List String
  total : Nat
  cats : List (String × Nat)
  dups : Nat
  saved : Nat
  moves : Nat
  progress : List (Nat × String)

/-- Fresh run state over the files that are not enumerated (they keep their
places and only serve as collision context). -/
def initState (skip : List FSFile) : RunState :=
  ⟨skip, [], [], 0, [], 0, 0, 0, []⟩

/-- Modelled from the spec: engine step 3 for one file, plus the bookkeeping of
step 3f/3g (log line, counters, progress callback with a 0..100 percentage). -/
def processOne (mode : Mode) (dd : Bool) (n : Nat) (st : RunState)
    (f : FSFile) (rest : List FSFile) : RunState :=
  let out := stepFile mode dd st.seen (st.done ++ rest) f
  { done := st.done ++ [out.newFile]
    seen := out.seenOut
    logs := out.logLine :: st.logs
    total := st.total + 1
    cats := match out.catInc with
            | some c => bumpCat st.cats c
            | none => st.cats
    dups := st.dups + out.dupInc
    saved := st.saved + out.savedInc
    moves := st.moves + out.moveInc
    progress := ((st.total + 1) * 100 / n, "Processed " ++ fname f) :: st.progress }

/-- Modelled from the spec: sequential processing of the enumerated files in
their (deterministic) enumeration order. -/
def processAll (mode : Mode) (dd : Bool) (n : Nat) (st : RunState) :
    List FSFile → RunState
  | [] => st
  | f :: rest => processAll mode dd n (processOne mode dd n st f rest) rest

/-- Modelled from the spec: one full engine pass over the filesystem rooted at
the run's root: enumerate (skipping the Duplicates folder), process every file
in order, then emit the final 100% progress callback. -/
def runState (mode : Mode) (dd : Bool) (fs : List FSFile) : RunState :=
  let todo := fs.filter (fun f => enumerated f)
  let skip := fs.filter (fun f => !enumerated f)
  let st := processAll mode dd todo.length (initState skip) todo
  { st with progress := (100, "Completed") :: st.progress }

/-- Modelled from the spec: RunAnalytics with exactly the surface fields
consumed downstream.  Wall-clock time cannot be captured in a pure model, the
field is carried with value 0. -/
structure Analytics where
  total_files : Nat
  time_taken_sec : Rat
  categories : List (String × Nat)
  duplicates_removed : Nat
  space_saved_bytes : Nat
deriving DecidableEq

/-- Seal the analytics record of a finished run. -/
def mkAnalytics (st : RunState) : Analytics :=
  ⟨st.total, 0, st.cats, st.dups, st.saved⟩

/-- Run-level failure: only the pre-flight root validation can fail a run. -/
inductive EngineError
  | invalidRoot
deriving DecidableEq

/-- Modelled from the spec: `organize_files(root, mode, detectDuplicates,
onProgress)`.  The root is validated first (`InvalidRootError` when it is not
a directory); otherwise the engine processes every file and returns the
ordered log lines together with the sealed analytics. -/
def organize_files (mode : Mode) (dd : Bool) (rootIsDir : Bool) (fs : List FSFile) :
    Except EngineError (List String × Analytics) :=
  if rootIsDir = true then
    let st := runState mode dd fs
    .ok (st.logs.reverse, mkAnalytics st)
  else .error .invalidRoot

/-- Filesystem contents after an engine invocation (unchanged when the run
fails pre-flight). -/
def runFs (mode : Mode) (dd : Bool) (rootIsDir : Bool) (fs : List FSFile) : List FSFile :=
  if rootIsDir = true then (runState mode dd fs).done else fs

/-- Progress callback invocations of a run, in call order. -/
def progressTrace (mode : Mode) (dd : Bool) (fs : List FSFile) : List (Nat × String) :=
  (runState mode dd fs).progress.reverse

/-- Expected percentage sequence of a run over `n` files: one call per file
and the final completion call. -/
def percList (n : Nat) : List Nat :=
  (List.range n).map (fun i => (i + 1) * 100 / n) ++ [100]

/-- Two files occupy different locations (directory or on-disk name differs). -/
def locNe (f g : FSFile) : Prop := f.dir ≠ g.dir ∨ fname f ≠ fname g

/-- A filesystem is well-formed when no two files occupy the same location. -/
def uniqueLocs (fs : List FSFile) : Prop := fs.Pairwise locNe

/-- Enumerated files have pairwise distinct content. -/
def condContentNe (f g : FSFile) : Prop :=
  enumerated f = true → enumerated g = true → f.content ≠ g.content

/-- Front-end state relevant to the organize button (`app.py`): the selected
folder path in the session state and whether the ORGANIZE FILES button was
pressed on this rerun. -/
structure UIState where
  folder_path : String
  organizePressed : Bool

/-- Translated from `app.py` line 171 and 175: the engine is invoked exactly
when the session's folder path is truthy (non-empty), the ORGANIZE FILES
button was pressed, and `os.path.isdir` holds for the path. -/
def uiInvokesEngine (isdir : String → Bool) (ui : UIState) : Bool :=
  (!(decide (ui.folder_path = ""))) && ui.organizePressed && isdir ui.folder_path

/-- Translated from `app.py` lines 171-193: filesystem state after one
front-end interaction; files move only through the engine call. -/
def uiFs (isdir : String → Bool) (mode : Mode) (dd : Bool) (fs : List FSFile)
    (ui : UIState) : List FSFile :=
  if uiInvokesEngine isdir ui = true then runFs mode dd true fs else fs

/-- Translated from `app.py` lines 171-193: the engine result handed to the
results renderer, when the engine was invoked at all. -/
def uiRun (isdir : String → Bool) (mode : Mode) (dd : Bool) (fs : List FSFile)
    (ui : UIState) : Option (List String × Analytics) :=
  if uiInvokesEngine isdir ui = true then
    match organize_files mode dd true fs with
    | .ok p => some p
    | .error _ => none
  else none

/-- Analytics dictionary as the front end sees it: any of the five fields may
be absent (Python dict with optional keys). -/
structure AnalyticsDict where
  total_files : Option Nat
  time_taken_sec : Option Rat
  categories : Option (List (String × Nat))
  duplicates_removed : Option Nat
  space_saved_bytes : Option Nat

/-- Dictionary with every field missing. -/
def emptyAnalyticsDict : AnalyticsDict := ⟨none, none, none, none, none⟩

/-- Translated from `app.py` lines 211-215: the results renderer reads every
analytics field with `dict.get` and a zero default (0, 0.0, empty mapping,
0, 0). -/
def renderTotals (d : AnalyticsDict) :
    Nat × Rat × List (String × Nat) × Nat × Nat :=
  (d.total_files.getD 0, d.time_taken_sec.getD 0, d.categories.getD [],
    d.duplicates_removed.getD 0, d.space_saved_bytes.getD 0)

/-- Sample file used by the concrete witnesses: a clean image file at the root. -/
def sampleA : FSFile := ⟨[], "a", ".jpg", [1, 2, 3], 2023, 5, false, false⟩

/-- Sample file used by the concrete witnesses: byte-identical copy of `sampleA`. -/
def sampleB : FSFile := ⟨[], "b", ".jpg", [1, 2, 3], 2023, 6, false, false⟩

/-- Sample file used by the concrete witnesses: a file whose content read fails. -/
def sampleR : FSFile := ⟨[], "r", ".txt", [7], 2022, 1, true, false⟩

/-- Sample file used by the concrete witnesses: a file whose relocation fails. -/
def sampleM : FSFile := ⟨[], "m", ".txt", [8], 2022, 2, false, true⟩

instance : DecidableRel locNe := fun f g => by unfold locNe; infer_instance

instance : DecidableRel condContentNe := fun f g => by unfold condContentNe; infer_instance

instance (l : List FSFile) : Decidable (uniqueLocs l) := by unfold uniqueLocs; infer_instance

theorem charVal_digitChar (d : Nat) (h : d < 10) : charVal (digitChar d) = d := by
  interval_cases d <;> decide

theorem valAux_append (l : List Char) (c : Char) :
    valAux (l ++ [c]) = 10 * valAux l + charVal c := by
  simp [valAux, List.foldl_append]

theorem valAux_natDigitsAux : ∀ (fuel n : Nat), n < fuel → valAux (natDigitsAux n fuel) = n := by
  intro fuel
  induction fuel with
  | zero => intro n h; omega
  | succ fu ih =>
    intro n h
    by_cases h10 : n < 10
    · simp [natDigitsAux, h10, valAux, charVal_digitChar n h10]
    · have hdiv : n / 10 < n := Nat.div_lt_self (by omega) (by omega)
      have hlt : n / 10 < fu := by omega
      simp only [natDigitsAux, if_neg h10]
      rw [valAux_append, ih (n / 10) hlt, charVal_digitChar (n % 10) (Nat.mod_lt _ (by omega))]
      omega

theorem natDigits_val (n : Nat) : valAux (natDigits n) = n :=
  valAux_natDigitsAux (n + 1) n (Nat.lt_succ_self n)

theorem natDigits_injective : Function.Injective natDigits := by
  intro m n h
  have h1 := natDigits_val m
  rw [h, natDigits_val n] at h1
  exact h1.symm

theorem natDigits_ne_nil (n : Nat) : natDigits n ≠ [] := by
  unfold natDigits natDigitsAux
  by_cases h : n < 10 <;> simp [h]

theorem one_le_length_natDigits (n : Nat) : 1 ≤ (natDigits n).length := by
  cases h : natDigits n with
  | nil => exact absurd h (natDigits_ne_nil n)
  | cons a l => simp

theorem candName_zero_data (base ext : String) :
    (candName base ext 0).data = base.data ++ ext.data := by
  simp [candName, candBase, String.data_append]

theorem candName_succ_data (base ext : String) (k : Nat) :
    (candName base ext (k + 1)).data
      = base.data ++ ((" (" : String).data ++ (natDigits (k + 1) ++ ((")" : String).data ++ ext.data))) := by
  simp only [candName, candBase, String.data_append, List.append_assoc]
  rfl

theorem candName_injective (base ext : String) : Function.Injective (candName base ext) := by
  have e1 : (" (" : String).data.length = 2 := rfl
  have e2 : ((")") : String).data.length = 1 := rfl
  intro k j h
  have hd := congrArg String.data h
  match k, j with
  | 0, 0 => rfl
  | 0, j + 1 =>
    exfalso
    rw [candName_zero_data, candName_succ_data] at hd
    have hlen := congrArg List.length hd
    simp only [List.length_append] at hlen
    have := one_le_length_natDigits (j + 1)
    omega
  | k + 1, 0 =>
    exfalso
    rw [candName_zero_data, candName_succ_data] at hd
    have hlen := congrArg List.length hd
    simp only [List.length_append] at hlen
    have := one_le_length_natDigits (k + 1)
    omega
  | k + 1, j + 1 =>
    rw [candName_succ_data, candName_succ_data] at hd
    have h1 := List.append_cancel_left hd
    have h2 := List.append_cancel_left h1
    have h3 := List.append_cancel_right h2
    exact natDigits_injective h3

theorem planNameAux_none (existing : List String) (base ext : String) :
    ∀ (fuel k : Nat), planNameAux existing base ext fuel k = none →
      ∀ j, k ≤ j → j < k + fuel → candName base ext j ∈ existing := by
  intro fuel
  induction fuel with
  | zero => intro k h j h1 h2; omega
  | succ fu ih =>
    intro k h j h1 h2
    by_cases hc : candName base ext k ∈ existing
    · rcases Nat.eq_or_lt_of_le h1 with rfl | hlt
      · exact hc
      · have h' : planNameAux existing base ext fu (k + 1) = none := by
          simpa [planNameAux, hc] using h
        exact ih (k + 1) h' j hlt (by omega)
    · simp [planNameAux, hc] at h

theorem planNameAux_some (existing : List String) (base ext : String) :
    ∀ (fuel k j : Nat), planNameAux existing base ext fuel k = some j →
      k ≤ j ∧ candName base ext j ∉ existing ∧
        ∀ i, k ≤ i → i < j → candName base ext i ∈ existing := by
  intro fuel
  induction fuel with
  | zero => intro k j h; simp [planNameAux] at h
  | succ fu ih =>
    intro k j h
    by_cases hc : candName base ext k ∈ existing
    · have h' : planNameAux existing base ext fu (k + 1) = some j := by
        simpa [planNameAux, hc] using h
      obtain ⟨hle, hfree, hleast⟩ := ih (k + 1) j h'
      refine ⟨by omega, hfree, ?_⟩
      intro i h1 h2
      rcases Nat.eq_or_lt_of_le h1 with rfl | hlt
      · exact hc
      · exact hleast i hlt h2
    · have hj : k = j := by simpa [planNameAux, hc] using h
      subst hj
      exact ⟨le_refl _, hc, fun i h1 h2 => absurd h1 (by omega)⟩

theorem planK_isSome (existing : List String) (base ext : String) :
    (planK existing base ext).isSome = true := by
  cases h : planK existing base ext with
  | some k => rfl
  | none =>
    exfalso
    have hall : ∀ j, j < existing.length + 1 → candName base ext j ∈ existing := fun j hj =>
      planNameAux_none existing base ext (existing.length + 1) 0 h j (Nat.zero_le j) (by omega)
    have hnodup : ((List.range (existing.length + 1)).map (candName base ext)).Nodup :=
      List.Nodup.map (candName_injective base ext) (List.nodup_range _)
    have hsub : ((List.range (existing.length + 1)).map (candName base ext)).toFinset
        ⊆ existing.toFinset := by
      intro x hx
      rw [List.mem_toFinset] at hx ⊢
      rcases List.mem_map.mp hx with ⟨j, hj, rfl⟩
      exact hall j (List.mem_range.mp hj)
    have h1 : ((List.range (existing.length + 1)).map (candName base ext)).toFinset.card
        = existing.length + 1 := by
      rw [List.toFinset_card_of_nodup hnodup]
      simp
    have h2 := Finset.card_le_card hsub
    have h3 := List.toFinset_card_le existing
    omega

theorem planK_exists (existing : List String) (base ext : String) :
    ∃ k, planK existing base ext = some k :=
  Option.isSome_iff_exists.mp (planK_isSome existing base ext)

theorem planK_free (existing : List String) (base ext : String) (k : Nat)
    (h : planK existing base ext = some k) : candName base ext k ∉ existing :=
  (planNameAux_some existing base ext (existing.length + 1) 0 k h).2.1

theorem planK_least (existing : List String) (base ext : String) (k : Nat)
    (h : planK existing base ext = some k) :
    ∀ i, i < k → candName base ext i ∈ existing := fun i hik =>
  (planNameAux_some existing base ext (existing.length + 1) 0 k h).2.2 i (Nat.zero_le i) hik

theorem planK_zero (existing : List String) (base ext : String)
    (h : candName base ext 0 ∉ existing) : planK existing base ext = some 0 := by
  simp [planK, planNameAux, h]

theorem categoryName_ne_dup (c : Category) : categoryName c ≠ dupDirName := by
  cases c <;> decide

theorem destDir_ne_nil (mode : Mode) (f : FSFile) : destDir mode f ≠ [] := by
  cases mode <;> simp [destDir]

theorem destDir_head (mode : Mode) (f : FSFile) :
    (destDir mode f).head? = some (categoryName (classify f.ext)) := by
  cases mode <;> rfl

theorem destDir_ne_dupdir (mode : Mode) (f : FSFile) : destDir mode f ≠ [dupDirName] := by
  intro h
  have := congrArg List.head? h
  rw [destDir_head] at this
  simp at this
  exact categoryName_ne_dup (classify f.ext) this

theorem destDir_update (mode : Mode) (f : FSFile) (d : List String) (b : String) :
    destDir mode { f with dir := d, base := b } = destDir mode f := by
  cases mode <;> rfl

theorem enumerated_of_dir_eq_destDir (mode : Mode) (f : FSFile) (h : f.dir = destDir mode f) :
    enumerated f = true := by
  have hh : f.dir.head? = some (categoryName (classify f.ext)) := by
    rw [h]; exact destDir_head mode f
  simp [enumerated, hh]
  exact categoryName_ne_dup (classify f.ext)

theorem enumerated_false_of_dupdir (f : FSFile) (h : f.dir = [dupDirName]) :
    enumerated f = false := by
  simp [enumerated, h]

theorem observe_fst (s : List (List Nat)) (x : List Nat) :
    (observe s x).1 = decide (x ∈ s) := by
  by_cases h : x ∈ s <;> simp [observe, h]

theorem observe_mem_snd (s : List (List Nat)) (x : List Nat) : x ∈ (observe s x).2 := by
  by_cases h : x ∈ s <;> simp [observe, h]

theorem observe_subset_snd (s : List (List Nat)) (x : List Nat) : s ⊆ (observe s x).2 := by
  by_cases h : x ∈ s <;> simp [observe, h]

theorem observe_snd_of_not_mem (s : List (List Nat)) (x : List Nat) (h : x ∉ s) :
    (observe s x).2 = x :: s := by
  simp [observe, h]

theorem namesAt_nil (dd : List String) : namesAt dd [] = [] := rfl

theorem namesAt_cons_ne (dd : List String) (g : FSFile) (l : List FSFile) (h : ¬(g.dir = dd)) :
    namesAt dd (g :: l) = namesAt dd l := by
  simp [namesAt, List.filter, h]

theorem mem_namesAt (dd : List String) (l : List FSFile) (x : String) :
    x ∈ namesAt dd l ↔ ∃ g ∈ l, g.dir = dd ∧ fname g = x := by
  simp only [namesAt, List.mem_map, List.mem_filter, decide_eq_true_eq]
  constructor
  · rintro ⟨g, ⟨hg, hd⟩, he⟩
    exact ⟨g, hg, hd, he⟩
  · rintro ⟨g, hg, hd, he⟩
    exact ⟨g, ⟨hg, hd⟩, he⟩

theorem fname_update (f : FSFile) (d : List String) (b : String) :
    fname { f with dir := d, base := b } = b ++ f.ext := rfl

theorem relocate_ok (others : List FSFile) (dd : List String) (f : FSFile)
    (hm : f.moveFails = false) :
    ∃ nf, (relocate others dd f = .moved nf ∨ (relocate others dd f = .noop ∧ nf = f)) ∧
      nf.dir = dd ∧ fname nf ∉ namesAt dd others ∧
      nf.base ++ nf.ext = fname nf ∧
      nf.content = f.content ∧ nf.ext = f.ext ∧ nf.year = f.year ∧ nf.month = f.month ∧
      nf.readFails = f.readFails ∧ nf.moveFails = f.moveFails := by
  obtain ⟨k, hk⟩ := planK_exists (namesAt dd others) f.base f.ext
  have hfree := planK_free _ _ _ _ hk
  by_cases he : { f with dir := dd, base := candBase f.base k } = f
  · refine ⟨f, Or.inr ⟨?_, rfl⟩, ?_, ?_, rfl, rfl, rfl, rfl, rfl, rfl, rfl⟩
    · simp only [relocate, hk]
      rw [if_pos he]
    · have := congrArg FSFile.dir he
      simpa using this.symm
    · have hb := congrArg FSFile.base he
      simp at hb
      have : fname f = candName f.base f.ext k := by
        simp [fname, candName, hb]
      rw [this]
      exact hfree
  · refine ⟨{ f with dir := dd, base := candBase f.base k }, Or.inl ?_, rfl, ?_, rfl, rfl, rfl,
      rfl, rfl, rfl, rfl⟩
    · simp only [relocate, hk]
      rw [if_neg he, if_neg (by simp [hm])]
    · exact hfree


theorem relocate_failed_of_needed (others : List FSFile) (dd : List String) (f : FSFile)
    (hm : f.moveFails = true) (hd : f.dir ≠ dd) : relocate others dd f = .failed := by
  obtain ⟨k, hk⟩ := planK_exists (namesAt dd others) f.base f.ext
  have he : { f with dir := dd, base := candBase f.base k } ≠ f := by
    intro h
    exact hd ((congrArg FSFile.dir h).symm ▸ rfl)
  simp only [relocate, hk]
  rw [if_neg he, if_pos hm]

theorem destDir_congr (m : Mode) (f g : FSFile) (he : f.ext = g.ext) (hy : f.year = g.year)
    (hmo : f.month = g.month) : destDir m f = destDir m g := by
  cases m <;> simp [destDir, he, hy, hmo]

theorem candBase_zero (b : String) : candBase b 0 = b := rfl

theorem processOne_eq (m : Mode) (d : Bool) (n : Nat) (st : RunState) (f : FSFile)
    (rest : List FSFile) (out : StepOut)
    (h : stepFile m d st.seen (st.done ++ rest) f = out) :
    processOne m d n st f rest
      = ⟨st.done ++ [out.newFile], out.seenOut, out.logLine :: st.logs, st.total + 1,
          (match out.catInc with
            | some c => bumpCat st.cats c
            | none => st.cats),
          st.dups + out.dupInc, st.saved + out.savedInc, st.moves + out.moveInc,
          ((st.total + 1) * 100 / n, "Processed " ++ fname f) :: st.progress⟩ := by
  simp only [processOne, h]

theorem stepFile_inplace (m : Mode) (d : Bool) (s : List (List Nat)) (o : List FSFile)
    (f : FSFile) (hr : f.readFails = false) (hm : f.moveFails = false)
    (hdir : f.dir = destDir m f) (hfresh : fname f ∉ namesAt f.dir o)
    (hseen : d = true → f.content ∉ s) :
    stepFile m d s o f = ⟨f, "OK (in place): " ++ fname f,
      some (categoryName (classify f.ext)), 0, 0, 0,
      if d = true then f.content :: s else s⟩ := by
  have hc1 : ¬(d = true ∧ f.readFails = true) := by simp [hr]
  have hc2 : ¬(d = true ∧ (observe s f.content).1 = true) := by
    rintro ⟨hd, hobs⟩
    rw [observe_fst] at hobs
    exact hseen hd (by simpa using hobs)
  have h0 : candName f.base f.ext 0 ∉ namesAt (destDir m f) o := by
    rw [← hdir]
    exact hfresh
  have hk := planK_zero _ _ _ h0
  have heq : { f with dir := destDir m f, base := candBase f.base 0 } = f := by
    rw [candBase_zero, ← hdir]
  have hrel : relocate o (destDir m f) f = .noop := by
    simp only [relocate, hk]
    rw [if_pos heq]
  simp only [stepFile, if_neg hc1, if_neg hc2, hrel]
  by_cases hd : d = true
  · rw [if_pos hd, if_pos hd, observe_snd_of_not_mem s f.content (hseen hd)]
  · rw [if_neg hd, if_neg hd]

theorem stepFile_move_fresh (m : Mode) (d : Bool) (s : List (List Nat)) (o : List FSFile)
    (f : FSFile) (hr : f.readFails = false) (hm : f.moveFails = false)
    (hs : d = true → f.content ∉ s) (hfresh : namesAt (destDir m f) o = [])
    (hdd : f.dir ≠ destDir m f) :
    stepFile m d s o f = ⟨{ f with dir := destDir m f },
      "MOVED: " ++ fname f ++ " -> " ++ joinDirs (destDir m f),
      some (categoryName (classify f.ext)), 0, 0, 1,
      if d = true then f.content :: s else s⟩ := by
  have hc1 : ¬(d = true ∧ f.readFails = true) := by simp [hr]
  have hc2 : ¬(d = true ∧ (observe s f.content).1 = true) := by
    rintro ⟨hd, hobs⟩
    rw [observe_fst] at hobs
    exact hs hd (by simpa using hobs)
  have hk : planK (namesAt (destDir m f) o) f.base f.ext = some 0 := by
    rw [hfresh]
    exact planK_zero _ _ _ (List.not_mem_nil _)
  have hne : { f with dir := destDir m f, base := candBase f.base 0 } ≠ f := by
    intro h
    exact hdd ((congrArg FSFile.dir h).symm ▸ rfl)
  have hrel : relocate o (destDir m f) f
      = .moved { f with dir := destDir m f, base := candBase f.base 0 } := by
    simp only [relocate, hk]
    rw [if_neg hne, if_neg (by simp [hm])]
  simp only [stepFile, if_neg hc1, if_neg hc2, hrel]
  by_cases hd : d = true
  · rw [if_pos hd, if_pos hd, observe_snd_of_not_mem s f.content (hs hd), candBase_zero]
  · rw [if_neg hd, if_neg hd, candBase_zero]

theorem stepFile_dup_fresh (m : Mode) (s : List (List Nat)) (o : List FSFile)
    (f : FSFile) (hr : f.readFails = false) (hm : f.moveFails = false)
    (hs : f.content ∈ s) (hfresh : namesAt [dupDirName] o = [])
    (hdd : f.dir ≠ [dupDirName]) :
    stepFile m true s o f = ⟨{ f with dir := [dupDirName] },
      "DUPLICATE: " ++ fname f ++ " -> " ++ dupDirName, none, 1, fsize f, 1, s⟩ := by
  have hc1 : ¬(true = true ∧ f.readFails = true) := by simp [hr]
  have hc2 : true = true ∧ (observe s f.content).1 = true := by
    refine ⟨rfl, ?_⟩
    rw [observe_fst]
    simpa using hs
  have hk : planK (namesAt [dupDirName] o) f.base f.ext = some 0 := by
    rw [hfresh]
    exact planK_zero _ _ _ (List.not_mem_nil _)
  have hne : { f with dir := [dupDirName], base := candBase f.base 0 } ≠ f := by
    intro h
    exact hdd ((congrArg FSFile.dir h).symm ▸ rfl)
  have hrel : relocate o [dupDirName] f
      = .moved { f with dir := [dupDirName], base := candBase f.base 0 } := by
    simp only [relocate, hk]
    rw [if_neg hne, if_neg (by simp [hm])]
  simp [stepFile, hr, hrel, observe_fst, hs, candBase_zero]

theorem stepFile_clean (m : Mode) (d : Bool) (s : List (List Nat)) (o : List FSFile)
    (f : FSFile) (hr : f.readFails = false) (hm : f.moveFails = false) :
    ((stepFile m d s o f).newFile.content = f.content ∧
      (stepFile m d s o f).newFile.readFails = false ∧
      (stepFile m d s o f).newFile.moveFails = false) ∧
    fname (stepFile m d s o f).newFile ∉ namesAt (stepFile m d s o f).newFile.dir o ∧
    (enumerated (stepFile m d s o f).newFile = true →
      (stepFile m d s o f).newFile.dir = destDir m (stepFile m d s o f).newFile) ∧
    s ⊆ (stepFile m d s o f).seenOut ∧
    (d = true → f.content ∈ (stepFile m d s o f).seenOut) ∧
    (d = true → (enumerated (stepFile m d s o f).newFile = false ∨
      (stepFile m d s o f).newFile.content ∉ s)) := by
  have hc1 : ¬(d = true ∧ f.readFails = true) := by simp [hr]
  by_cases hc2 : d = true ∧ (observe s f.content).1 = true
  · -- duplicate branch: the file is quarantined into the Duplicates folder
    obtain ⟨nf, hcase, hdir, hfresh, _, hcontent, hext, hyear, hmonth, hrf, hmf⟩ :=
      relocate_ok o [dupDirName] f hm
    have henum : enumerated nf = false := enumerated_false_of_dupdir nf hdir
    have hmem : f.content ∈ s := by
      have hx := hc2.2
      rw [observe_fst] at hx
      simpa using hx
    rcases hcase with hmov | ⟨hnoop, rfl⟩
    · have hstep : stepFile m d s o f
          = ⟨nf, "DUPLICATE: " ++ fname f ++ " -> " ++ dupDirName, none, 1, fsize f, 1, s⟩ := by
        simp only [stepFile, if_neg hc1, if_pos hc2, hmov]
      rw [hstep]
      dsimp only
      refine ⟨⟨hcontent, hrf.trans hr, hmf.trans hm⟩, ?_, ?_, fun x hx => hx, fun _ => hmem,
        fun _ => Or.inl henum⟩
      · rw [hdir]
        exact hfresh
      · intro h
        rw [henum] at h
        exact absurd h Bool.false_ne_true
    · have hstep : stepFile m d s o nf
          = ⟨nf, "DUPLICATE (in place): " ++ fname nf, none, 1, fsize nf, 0, s⟩ := by
        simp only [stepFile, if_neg hc1, if_pos hc2, hnoop]
      rw [hstep]
      dsimp only
      refine ⟨⟨rfl, hr, hm⟩, ?_, ?_, fun x hx => hx, fun _ => hmem, fun _ => Or.inl henum⟩
      · rw [hdir]
        exact hfresh
      · intro h
        rw [henum] at h
        exact absurd h Bool.false_ne_true
  · -- kept branch: the file is placed at its category destination
    obtain ⟨nf, hcase, hdir, hfresh, _, hcontent, hext, hyear, hmonth, hrf, hmf⟩ :=
      relocate_ok o (destDir m f) f hm
    have hdest : nf.dir = destDir m nf := by
      rw [hdir]
      exact (destDir_congr m nf f hext hyear hmonth).symm
    have hnotin : d = true → f.content ∉ s := by
      intro hd hmem
      exact hc2 ⟨hd, by rw [observe_fst]; simpa using hmem⟩
    have hsub : s ⊆ (if d = true then (observe s f.content).2 else s) := by
      by_cases hd : d = true
      · rw [if_pos hd]
        exact observe_subset_snd s f.content
      · rw [if_neg hd]
        exact fun x hx => hx
    have hin : d = true → f.content ∈ (if d = true then (observe s f.content).2 else s) := by
      intro hd
      rw [if_pos hd]
      exact observe_mem_snd s f.content
    rcases hcase with hmov | ⟨hnoop, rfl⟩
    · have hstep : stepFile m d s o f
          = ⟨nf, "MOVED: " ++ fname f ++ " -> " ++ joinDirs (destDir m f),
              some (categoryName (classify f.ext)), 0, 0, 1,
              if d = true then (observe s f.content).2 else s⟩ := by
        simp only [stepFile, if_neg hc1, if_neg hc2, hmov]
      rw [hstep]
      dsimp only
      refine ⟨⟨hcontent, hrf.trans hr, hmf.trans hm⟩, ?_, fun _ => hdest, hsub, hin, ?_⟩
      · rw [hdir]
        exact hfresh
      · intro hd
        refine Or.inr ?_
        rw [hcontent]
        exact hnotin hd
    · have hstep : stepFile m d s o nf
          = ⟨nf, "OK (in place): " ++ fname nf,
              some (categoryName (classify nf.ext)), 0, 0, 0,
              if d = true then (observe s nf.content).2 else s⟩ := by
        simp only [stepFile, if_neg hc1, if_neg hc2, hnoop]
      rw [hstep]
      dsimp only
      refine ⟨⟨rfl, hr, hm⟩, ?_, fun _ => hdest, hsub, hin, fun hd => Or.inr (hnotin hd)⟩
      · rw [hdir]
        exact hfresh

theorem processOne_total (m : Mode) (d : Bool) (n : Nat) (st : RunState) (f : FSFile)
    (rest : List FSFile) : (processOne m d n st f rest).total = st.total + 1 := rfl

theorem processOne_done (m : Mode) (d : Bool) (n : Nat) (st : RunState) (f : FSFile)
    (rest : List FSFile) :
    (processOne m d n st f rest).done
      = st.done ++ [(stepFile m d st.seen (st.done ++ rest) f).newFile] := rfl

theorem processOne_logs (m : Mode) (d : Bool) (n : Nat) (st : RunState) (f : FSFile)
    (rest : List FSFile) :
    (processOne m d n st f rest).logs
      = (stepFile m d st.seen (st.done ++ rest) f).logLine :: st.logs := rfl

theorem processOne_seen (m : Mode) (d : Bool) (n : Nat) (st : RunState) (f : FSFile)
    (rest : List FSFile) :
    (processOne m d n st f rest).seen = (stepFile m d st.seen (st.done ++ rest) f).seenOut := rfl

theorem processOne_moves (m : Mode) (d : Bool) (n : Nat) (st : RunState) (f : FSFile)
    (rest : List FSFile) :
    (processOne m d n st f rest).moves
      = st.moves + (stepFile m d st.seen (st.done ++ rest) f).moveInc := rfl

theorem processOne_progress (m : Mode) (d : Bool) (n : Nat) (st : RunState) (f : FSFile)
    (rest : List FSFile) :
    (processOne m d n st f rest).progress
      = ((st.total + 1) * 100 / n, "Processed " ++ fname f) :: st.progress := rfl

theorem processAll_total (m : Mode) (d : Bool) (n : Nat) :
    ∀ (todo : List FSFile) (st : RunState),
      (processAll m d n st todo).total = st.total + todo.length := by
  intro todo
  induction todo with
  | nil => intro st; simp [processAll]
  | cons f rest ih =>
    intro st
    rw [processAll, ih, processOne_total]
    simp
    omega

theorem processAll_logs_length (m : Mode) (d : Bool) (n : Nat) :
    ∀ (todo : List FSFile) (st : RunState),
      (processAll m d n st todo).logs.length = st.logs.length + todo.length := by
  intro todo
  induction todo with
  | nil => intro st; simp [processAll]
  | cons f rest ih =>
    intro st
    rw [processAll, ih, processOne_logs]
    simp
    omega

theorem processAll_logs_mono (m : Mode) (d : Bool) (n : Nat) :
    ∀ (todo : List FSFile) (st : RunState) (x : String),
      x ∈ st.logs → x ∈ (processAll m d n st todo).logs := by
  intro todo
  induction todo with
  | nil => intro st x hx; simpa [processAll] using hx
  | cons f rest ih =>
    intro st x hx
    rw [processAll]
    exact ih _ x (by rw [processOne_logs]; exact List.mem_cons_of_mem _ hx)

theorem stepFile_read_error (m : Mode) (s : List (List Nat)) (o : List FSFile) (f : FSFile)
    (hr : f.readFails = true) :
    stepFile m true s o f = ⟨f, "ERROR (read): " ++ fname f, none, 0, 0, 0, s⟩ := by
  rw [stepFile, if_pos ⟨rfl, hr⟩]

theorem stepFile_move_error_nodup (m : Mode) (s : List (List Nat)) (o : List FSFile)
    (f : FSFile) (hm : f.moveFails = true) (hroot : f.dir = []) :
    stepFile m false s o f = ⟨f, "ERROR (move): " ++ fname f, none, 0, 0, 0, s⟩ := by
  have hrel : relocate o (destDir m f) f = .failed := by
    refine relocate_failed_of_needed o (destDir m f) f hm ?_
    rw [hroot]
    exact (destDir_ne_nil m f).symm
  simp [stepFile, hrel]

theorem processAll_read_error (m : Mode) (n : Nat) :
    ∀ (todo : List FSFile) (st : RunState) (f : FSFile), f ∈ todo → f.readFails = true →
      ("ERROR (read): " ++ fname f) ∈ (processAll m true n st todo).logs := by
  intro todo
  induction todo with
  | nil => intro st f hf; exact absurd hf (List.not_mem_nil f)
  | cons g rest ih =>
    intro st f hf hr
    rw [processAll]
    rcases List.mem_cons.mp hf with rfl | hmem
    · refine processAll_logs_mono m true n rest _ _ ?_
      rw [processOne_logs, stepFile_read_error m st.seen (st.done ++ rest) f hr]
      exact List.mem_cons_self _ _
    · exact ih _ f hmem hr

theorem processAll_move_error (m : Mode) (n : Nat) :
    ∀ (todo : List FSFile) (st : RunState) (f : FSFile), f ∈ todo → f.moveFails = true →
      f.dir = [] →
      ("ERROR (move): " ++ fname f) ∈ (processAll m false n st todo).logs := by
  intro todo
  induction todo with
  | nil => intro st f hf; exact absurd hf (List.not_mem_nil f)
  | cons g rest ih =>
    intro st f hf hm hroot
    rw [processAll]
    rcases List.mem_cons.mp hf with rfl | hmem
    · refine processAll_logs_mono m false n rest _ _ ?_
      rw [processOne_logs, stepFile_move_error_nodup m st.seen (st.done ++ rest) f hm hroot]
      exact List.mem_cons_self _ _
    · exact ih _ f hmem hm hroot

theorem processAll_progress (m : Mode) (d : Bool) (n : Nat) :
    ∀ (todo : List FSFile) (st : RunState),
      (processAll m d n st todo).progress.map Prod.fst
        = ((List.range todo.length).map (fun i => (st.total + i + 1) * 100 / n)).reverse
            ++ st.progress.map Prod.fst := by
  intro todo
  induction todo with
  | nil => intro st; simp [processAll]
  | cons f rest ih =>
    intro st
    rw [processAll, ih, processOne_total, processOne_progress]
    simp only [List.length_cons, List.range_succ_eq_map, List.map_cons, List.map_map,
      List.reverse_cons, List.append_assoc, List.singleton_append]
    have hfun : (List.range rest.length).map (fun i => (st.total + 1 + i + 1) * 100 / n)
        = (List.range rest.length).map ((fun i => (st.total + i + 1) * 100 / n) ∘ Nat.succ) := by
      refine List.map_congr_left (fun i _ => ?_)
      have h : st.total + 1 + i + 1 = st.total + (i + 1) + 1 := by omega
      simp only [Function.comp]
      rw [h]
    rw [hfun]

theorem locNe_symm {f g : FSFile} (h : locNe f g) : locNe g f := h.imp Ne.symm Ne.symm

theorem condContentNe_symm {f g : FSFile} (h : condContentNe f g) : condContentNe g f :=
  fun hg hf => (h hf hg).symm

theorem locNe_of_fresh {nf : FSFile} {l : List FSFile}
    (hfresh : fname nf ∉ namesAt nf.dir l) : ∀ g ∈ l, locNe nf g := by
  intro g hg
  by_cases hdir : g.dir = nf.dir
  · refine Or.inr (fun hn => hfresh ?_)
    rw [mem_namesAt]
    exact ⟨g, hg, hdir, hn.symm⟩
  · exact Or.inl (fun h => hdir h.symm)

theorem processAll_organizes (m : Mode) (d : Bool) (n : Nat) :
    ∀ (todo : List FSFile) (st : RunState),
    (st.done ++ todo).Pairwise locNe →
    (∀ f ∈ st.done ++ todo, f.readFails = false ∧ f.moveFails = false) →
    (∀ f ∈ st.done, enumerated f = true → f.dir = destDir m f) →
    (d = true → ∀ f ∈ st.done, enumerated f = true → f.content ∈ st.seen) →
    (d = true → st.done.Pairwise condContentNe) →
    (processAll m d n st todo).done.Pairwise locNe ∧
    (∀ f ∈ (processAll m d n st todo).done, f.readFails = false ∧ f.moveFails = false) ∧
    (∀ f ∈ (processAll m d n st todo).done, enumerated f = true → f.dir = destDir m f) ∧
    (d = true → ∀ f ∈ (processAll m d n st todo).done, enumerated f = true →
      f.content ∈ (processAll m d n st todo).seen) ∧
    (d = true → (processAll m d n st todo).done.Pairwise condContentNe) := by
  intro todo
  induction todo with
  | nil =>
    intro st h1 h2 h3 h4 h5
    rw [processAll]
    simp only [List.append_nil] at h1 h2
    exact ⟨h1, h2, h3, h4, h5⟩
  | cons f rest ih =>
    intro st h1 h2 h3 h4 h5
    have hf : f.readFails = false ∧ f.moveFails = false :=
      h2 f (List.mem_append_right _ (List.mem_cons_self f rest))
    obtain ⟨⟨hcontent, hrf, hmf⟩, hfresh, hdest, hsub, hin, hfreshc⟩ :=
      stepFile_clean m d st.seen (st.done ++ rest) f hf.1 hf.2
    have hmid := (List.pairwise_middle (fun h => locNe_symm h)).mp h1
    obtain ⟨hconsf, hrest⟩ := List.pairwise_cons.mp hmid
    have hnew := locNe_of_fresh hfresh
    have h1' : ((st.done ++ [(stepFile m d st.seen (st.done ++ rest) f).newFile]) ++ rest).Pairwise
        locNe := by
      simp only [List.append_assoc, List.singleton_append]
      exact (List.pairwise_middle (fun h => locNe_symm h)).mpr
        (List.pairwise_cons.mpr ⟨hnew, hrest⟩)
    rw [processAll]
    refine ih (processOne m d n st f rest) ?_ ?_ ?_ ?_ ?_
    · rw [processOne_done]
      exact h1'
    · intro g hg
      rw [processOne_done] at hg
      rcases List.mem_append.mp hg with hg' | hg'
      · rcases List.mem_append.mp hg' with hgd | hgnf
        · exact h2 g (List.mem_append_left _ hgd)
        · have hge : g = (stepFile m d st.seen (st.done ++ rest) f).newFile := by
            simpa using hgnf
          rw [hge, hrf, hmf]
          exact ⟨rfl, rfl⟩
      · exact h2 g (List.mem_append_right _ (List.mem_cons_of_mem f hg'))
    · intro g hg henu
      rw [processOne_done] at hg
      rcases List.mem_append.mp hg with hgd | hgnf
      · exact h3 g hgd henu
      · have hge : g = (stepFile m d st.seen (st.done ++ rest) f).newFile := by
          simpa using hgnf
        rw [hge] at henu ⊢
        exact hdest henu
    · intro hd g hg henu
      rw [processOne_done] at hg
      rw [processOne_seen]
      rcases List.mem_append.mp hg with hgd | hgnf
      · exact hsub (h4 hd g hgd henu)
      · have hge : g = (stepFile m d st.seen (st.done ++ rest) f).newFile := by
          simpa using hgnf
        rw [hge, hcontent]
        exact hin hd
    · intro hd
      rw [processOne_done, List.pairwise_append]
      refine ⟨h5 hd, by simp, ?_⟩
      intro a ha b hb
      have hb' : b = (stepFile m d st.seen (st.done ++ rest) f).newFile := by simpa using hb
      rw [hb']
      intro hea henf
      rcases hfreshc hd with henf' | hnotin
      · rw [henf] at henf'
        exact absurd henf' (by simp)
      · have hain := h4 hd a ha hea
        intro heq
        rw [heq] at hain
        exact hnotin hain

theorem processAll_inplace (m : Mode) (d : Bool) (n : Nat) :
    ∀ (todo : List FSFile) (st : RunState),
    (st.done ++ todo).Pairwise locNe →
    (∀ f ∈ todo, f.readFails = false ∧ f.moveFails = false ∧ f.dir = destDir m f) →
    (d = true → todo.Pairwise (fun f g => f.content ≠ g.content)) →
    (d = true → ∀ f ∈ todo, f.content ∉ st.seen) →
    (processAll m d n st todo).done = st.done ++ todo ∧
    (processAll m d n st todo).moves = st.moves ∧
    (processAll m d n st todo).total = st.total + todo.length := by
  intro todo
  induction todo with
  | nil =>
    intro st h1 h2 h3 h4
    rw [processAll]
    simp
  | cons f rest ih =>
    intro st h1 h2 h3 h4
    obtain ⟨hrf, hmf, hdirf⟩ := h2 f (List.mem_cons_self f rest)
    have hmid := (List.pairwise_middle (fun h => locNe_symm h)).mp h1
    obtain ⟨hconsf, hrest⟩ := List.pairwise_cons.mp hmid
    have hfresh : fname f ∉ namesAt f.dir (st.done ++ rest) := by
      intro hmem
      rw [mem_namesAt] at hmem
      obtain ⟨g, hg, hgdir, hgname⟩ := hmem
      rcases hconsf g hg with hne | hne
      · exact hne hgdir.symm
      · exact hne hgname.symm
    have hseenf : d = true → f.content ∉ st.seen := fun hd =>
      h4 hd f (List.mem_cons_self f rest)
    have hstep := stepFile_inplace m d st.seen (st.done ++ rest) f hrf hmf hdirf hfresh hseenf
    have hone : processOne m d n st f rest
        = ⟨st.done ++ [f], if d = true then f.content :: st.seen else st.seen,
            ("OK (in place): " ++ fname f) :: st.logs, st.total + 1,
            bumpCat st.cats (categoryName (classify f.ext)), st.dups, st.saved, st.moves,
            ((st.total + 1) * 100 / n, "Processed " ++ fname f) :: st.progress⟩ := by
      rw [processOne_eq m d n st f rest _ hstep]
      rfl
    rw [processAll, hone]
    have hgoal := ih ⟨st.done ++ [f], if d = true then f.content :: st.seen else st.seen,
        ("OK (in place): " ++ fname f) :: st.logs, st.total + 1,
        bumpCat st.cats (categoryName (classify f.ext)), st.dups, st.saved, st.moves,
        ((st.total + 1) * 100 / n, "Processed " ++ fname f) :: st.progress⟩ ?_ ?_ ?_ ?_
    · obtain ⟨g1, g2, g3⟩ := hgoal
      refine ⟨?_, g2, ?_⟩
      · rw [g1]
        simp [List.append_assoc]
      · rw [g3]
        simp
        omega
    · simp only [List.append_assoc, List.singleton_append]
      exact h1
    · exact fun g hg => h2 g (List.mem_cons_of_mem f hg)
    · exact fun hd => (List.pairwise_cons.mp (h3 hd)).2
    · intro hd g hg
      simp only []
      rw [if_pos hd]
      intro hmem
      rcases List.mem_cons.mp hmem with heq | hmem'
      · exact (List.pairwise_cons.mp (h3 hd)).1 g hg heq.symm
      · exact h4 hd g (List.mem_cons_of_mem f hg) hmem'

theorem runState_done (m : Mode) (d : Bool) (fs : List FSFile) :
    (runState m d fs).done
      = (processAll m d (fs.filter (fun f => enumerated f)).length
          (initState (fs.filter (fun f => !enumerated f)))
          (fs.filter (fun f => enumerated f))).done := rfl

theorem runState_moves (m : Mode) (d : Bool) (fs : List FSFile) :
    (runState m d fs).moves
      = (processAll m d (fs.filter (fun f => enumerated f)).length
          (initState (fs.filter (fun f => !enumerated f)))
          (fs.filter (fun f => enumerated f))).moves := rfl

theorem runState_total_eq (m : Mode) (d : Bool) (fs : List FSFile) :
    (runState m d fs).total
      = (processAll m d (fs.filter (fun f => enumerated f)).length
          (initState (fs.filter (fun f => !enumerated f)))
          (fs.filter (fun f => enumerated f))).total := rfl

theorem runState_logs_eq (m : Mode) (d : Bool) (fs : List FSFile) :
    (runState m d fs).logs
      = (processAll m d (fs.filter (fun f => enumerated f)).length
          (initState (fs.filter (fun f => !enumerated f)))
          (fs.filter (fun f => enumerated f))).logs := rfl

theorem runState_progress_eq (m : Mode) (d : Bool) (fs : List FSFile) :
    (runState m d fs).progress
      = (100, "Completed") ::
          (processAll m d (fs.filter (fun f => enumerated f)).length
            (initState (fs.filter (fun f => !enumerated f)))
            (fs.filter (fun f => enumerated f))).progress := rfl

theorem runState_total (m : Mode) (d : Bool) (fs : List FSFile) :
    (runState m d fs).total = (fs.filter (fun f => enumerated f)).length := by
  rw [runState_total_eq, processAll_total]
  have h0 : (initState (fs.filter (fun f => !enumerated f))).total = 0 := rfl
  rw [h0]
  omega

theorem runState_logs_length (m : Mode) (d : Bool) (fs : List FSFile) :
    (runState m d fs).logs.length = (fs.filter (fun f => enumerated f)).length := by
  rw [runState_logs_eq, processAll_logs_length]
  have h0 : (initState (fs.filter (fun f => !enumerated f))).logs = [] := rfl
  rw [h0]
  simp

theorem perc_le_100 (n i : Nat) (h : i < n) : (i + 1) * 100 / n ≤ 100 := by
  have h1 : (i + 1) * 100 ≤ n * 100 := Nat.mul_le_mul_right _ (by omega)
  calc (i + 1) * 100 / n ≤ n * 100 / n := Nat.div_le_div_right h1
    _ = 100 := Nat.mul_div_cancel_left 100 (by omega)

theorem perc_lt_100 (n i : Nat) (h : i + 1 < n) : (i + 1) * 100 / n < 100 := by
  rw [Nat.div_lt_iff_lt_mul (by omega : 0 < n)]
  omega

theorem progressTrace_eq (m : Mode) (d : Bool) (fs : List FSFile) :
    (progressTrace m d fs).map Prod.fst
      = percList ((fs.filter (fun f => enumerated f)).length) := by
  unfold progressTrace percList
  rw [runState_progress_eq, List.reverse_cons, List.map_append, List.map_reverse,
    processAll_progress]
  have h0 : (initState (fs.filter (fun f => !enumerated f))).total = 0 := rfl
  have h1 : (initState (fs.filter (fun f => !enumerated f))).progress = [] := rfl
  rw [h0, h1]
  simp only [List.map_nil, List.append_nil, List.reverse_reverse, List.map_cons]
  have hfun : (List.range ((fs.filter (fun f => enumerated f)).length)).map
      (fun i => (0 + i + 1) * 100 / ((fs.filter (fun f => enumerated f)).length))
      = (List.range ((fs.filter (fun f => enumerated f)).length)).map
        (fun i => (i + 1) * 100 / ((fs.filter (fun f => enumerated f)).length)) :=
    List.map_congr_left (fun i _ => by rw [Nat.zero_add])
  rw [hfun]

theorem percList_sorted (n : Nat) : List.Sorted (fun a b => a ≤ b) (percList n) := by
  unfold percList
  refine List.pairwise_append.mpr ⟨?_, ?_, ?_⟩
  · refine List.Pairwise.map _ ?_ (List.pairwise_lt_range n)
    intro a b hab
    exact Nat.div_le_div_right (Nat.mul_le_mul_right _ (by omega))
  · simp
  · intro a ha b hb
    have hb' : b = 100 := by simpa using hb
    subst hb'
    rcases List.mem_map.mp ha with ⟨i, hi, rfl⟩
    exact perc_le_100 n i (List.mem_range.mp hi)

theorem percList_le (n : Nat) : (percList n).all (fun p => decide (p ≤ 100)) = true := by
  rw [List.all_eq_true]
  intro p hp
  rw [decide_eq_true_eq]
  unfold percList at hp
  rcases List.mem_append.mp hp with hp' | hp'
  · rcases List.mem_map.mp hp' with ⟨i, hi, rfl⟩
    exact perc_le_100 n i (List.mem_range.mp hi)
  · have : p = 100 := by simpa using hp'
    omega

theorem percList_getLast (n : Nat) : (percList n).getLastD 0 = 100 :=
  List.getLastD_concat _ _ _

theorem range_dropLast (n : Nat) : (List.range n).dropLast = List.range (n - 1) := by
  cases n with
  | zero => rfl
  | succ k =>
    rw [List.range_succ, List.dropLast_concat]
    rfl

theorem percList_front_lt (n : Nat) :
    ((percList n).dropLast.dropLast).all (fun p => decide (p < 100)) = true := by
  unfold percList
  rw [List.dropLast_concat, ← List.map_dropLast, range_dropLast, List.all_eq_true]
  intro p hp
  rcases List.mem_map.mp hp with ⟨i, hi, rfl⟩
  rw [decide_eq_true_eq]
  exact perc_lt_100 n i (by have := List.mem_range.mp hi; omega)

theorem classify_lower (e1 e2 : String) (h : lowerStr e1 = lowerStr e2) :
    classify e1 = classify e2 := by
  unfold classify
  rw [h]

theorem classify_unknown (e : String) (h : lowerStr e ∉ knownExts) :
    classify e = Category.Others := by
  simp only [knownExts, List.mem_append, not_or] at h
  obtain ⟨⟨⟨⟨⟨h1, h2⟩, h3⟩, h4⟩, h5⟩, h6⟩ := h
  simp only [classify]
  rw [if_neg h1, if_neg h2, if_neg h3, if_neg h4, if_neg h5, if_neg h6]

/-- C6: Classify is a pure total function from extension strings to Categories:
every input yields exactly one Category, it is deterministic (classification
factors through lower-casing, so two extensions with the same lower-casing
classify identically, in particular ".JPG" and ".jpg"), the empty extension
maps to Others, and every unknown extension maps to Others. -/
theorem c6_classify_total_caseless :
    (∀ e : String, ∃! c : Category, classify e = c) ∧
    (∀ e1 e2 : String, lowerStr e1 = lowerStr e2 → classify e1 = classify e2) ∧
    (classify ".JPG" = Category.Images ∧ classify ".jpg" = Category.Images) ∧
    classify "" = Category.Others ∧
    (∀ e : String, lowerStr e ∉ knownExts → classify e = Category.Others) := by
  refine ⟨fun e => ⟨classify e, rfl, fun c hc => hc.symm⟩, classify_lower,
    ⟨by decide, by decide⟩, by decide, classify_unknown⟩

/-- Witness for C6 at concrete extensions. -/
theorem c6_witness : classify ".JPG" = classify ".jpg" ∧ classify ".xyz" = Category.Others := by
  constructor
  · exact c6_classify_total_caseless.2.1 ".JPG" ".jpg" (by decide)
  · exact c6_classify_total_caseless.2.2.2.2 ".xyz" (by decide)

/-- C4: the PathPlanner always finds a destination (within its attempt bound),
the name it picks never collides with an existing file (no overwrite), it is
the first free disambiguation index (so `name.ext`, `name (1).ext`, ... are
tried in order until the first free one), planning is deterministic and
re-entrant (same directory state and source name give the same result), and
two files named `photo.jpg` destined for the same folder end up as
`photo.jpg` and `photo (1).jpg`. -/
theorem c4_collision_planner :
    (∀ (existing : List String) (b e : String), (planK existing b e).isSome = true) ∧
    (∀ (existing : List String) (b e : String) (k : Nat), planK existing b e = some k →
      candName b e k ∉ existing ∧ ∀ i, i < k → candName b e i ∈ existing) ∧
    (∀ (existing : List String) (b e : String), planName existing b e = planName existing b e) ∧
    planName [] "photo" ".jpg" = some "photo.jpg" ∧
    planName ["photo.jpg"] "photo" ".jpg" = some "photo (1).jpg" := by
  refine ⟨planK_isSome, fun ex b e k h => ⟨planK_free ex b e k h, planK_least ex b e k h⟩,
    fun _ _ _ => rfl, by decide, by decide⟩

/-- Witness for C4: disambiguation picked index 1 against `["photo.jpg"]`,
its candidate does not collide and index 0 collided. -/
theorem c4_witness :
    candName "photo" ".jpg" 1 ∉ ["photo.jpg"] ∧
      ∀ i, i < 1 → candName "photo" ".jpg" i ∈ ["photo.jpg"] :=
  c4_collision_planner.2.1 ["photo.jpg"] "photo" ".jpg" 1 (by decide)

/-- C7: invoking the engine on a root that is not a directory produces
InvalidRootError (no log/analytics pair is returned) and leaves the
filesystem untouched. -/
theorem c7_invalid_root_fail_fast (m : Mode) (d : Bool) (fs : List FSFile) :
    organize_files m d false fs = Except.error EngineError.invalidRoot ∧
    runFs m d false fs = fs :=
  ⟨by simp [organize_files], by simp [runFs]⟩

/-- C8: the engine returns the pair of ordered log lines and the sealed
analytics record; the analytics record exposes exactly the five surface
fields (total files, elapsed seconds, category counts, duplicates removed,
space saved), and total counts every enumerated file. -/
theorem c8_run_report_shape :
    (∀ a : Analytics, a = ⟨a.total_files, a.time_taken_sec, a.categories,
        a.duplicates_removed, a.space_saved_bytes⟩) ∧
    (∀ (m : Mode) (d : Bool) (fs : List FSFile),
      organize_files m d true fs
          = Except.ok ((runState m d fs).logs.reverse, mkAnalytics (runState m d fs)) ∧
      (mkAnalytics (runState m d fs)).total_files = (fs.filter (fun f => enumerated f)).length ∧
      (mkAnalytics (runState m d fs)).time_taken_sec = 0 ∧
      (mkAnalytics (runState m d fs)).categories = (runState m d fs).cats ∧
      (mkAnalytics (runState m d fs)).duplicates_removed = (runState m d fs).dups ∧
      (mkAnalytics (runState m d fs)).space_saved_bytes = (runState m d fs).saved) := by
  refine ⟨fun a => rfl, fun m d fs => ⟨by simp [organize_files], ?_, rfl, rfl, rfl, rfl⟩⟩
  exact runState_total m d fs

/-- C2: only InvalidRootError surfaces as a run-level failure (a valid root
always yields a complete report, and the error constructor appears only for
an invalid root); every enumerated file is processed and logged even in the
presence of per-file faults (total and log count equal the enumerated file
count); a read fault during hashing is recorded as an error log line, and a
move fault during relocation is recorded as an error log line — the run
continues past both. -/
theorem c2_error_isolation :
    (∀ (m : Mode) (d : Bool) (fs : List FSFile),
      organize_files m d true fs
        = Except.ok ((runState m d fs).logs.reverse, mkAnalytics (runState m d fs))) ∧
    (∀ (m : Mode) (d r : Bool) (fs : List FSFile) (e : EngineError),
      organize_files m d r fs = Except.error e → r = false ∧ e = EngineError.invalidRoot) ∧
    (∀ (m : Mode) (d : Bool) (fs : List FSFile),
      (runState m d fs).total = (fs.filter (fun f => enumerated f)).length ∧
      (runState m d fs).logs.length = (fs.filter (fun f => enumerated f)).length) ∧
    (∀ (m : Mode) (fs : List FSFile) (f : FSFile), f ∈ fs → enumerated f = true →
      f.readFails = true →
      ("ERROR (read): " ++ fname f) ∈ (runState m true fs).logs) ∧
    (∀ (m : Mode) (fs : List FSFile) (f : FSFile), f ∈ fs → f.dir = [] →
      f.moveFails = true →
      ("ERROR (move): " ++ fname f) ∈ (runState m false fs).logs) := by
  refine ⟨fun m d fs => by simp [organize_files], ?_,
    fun m d fs => ⟨runState_total m d fs, runState_logs_length m d fs⟩, ?_, ?_⟩
  · intro m d r fs e h
    cases r with
    | false =>
      refine ⟨rfl, ?_⟩
      unfold organize_files at h
      rw [if_neg (by simp : ¬(false = true))] at h
    | true => simp [organize_files] at h
  · intro m fs f hf he hr
    rw [runState_logs_eq]
    refine processAll_read_error m _ _ _ f ?_ hr
    rw [List.mem_filter]
    exact ⟨hf, he⟩
  · intro m fs f hf hdir hm
    rw [runState_logs_eq]
    refine processAll_move_error m _ _ _ f ?_ hm hdir
    rw [List.mem_filter]
    refine ⟨hf, ?_⟩
    simp [enumerated, hdir]

/-- Witness for C2 at concrete faulty files. -/
theorem c2_witness :
    ("ERROR (read): " ++ fname sampleR) ∈ (runState Mode.categoryOnly true [sampleR]).logs ∧
    ("ERROR (move): " ++ fname sampleM) ∈ (runState Mode.categoryOnly false [sampleM]).logs := by
  constructor
  · exact c2_error_isolation.2.2.2.1 Mode.categoryOnly [sampleR] sampleR (by decide) (by decide)
      (by decide)
  · exact c2_error_isolation.2.2.2.2 Mode.categoryOnly [sampleM] sampleM (by decide) rfl
      (by decide)

/-- C5: within one run the progress callback percentages are exactly one call
per processed file plus the final completion call; successive percentages are
non-decreasing, all lie in 0..100, the final call reports exactly 100, and
every call strictly before the last two (i.e. before processing is complete)
reports strictly less than 100. -/
theorem c5_progress_monotone (m : Mode) (d : Bool) (fs : List FSFile) :
    (progressTrace m d fs).map Prod.fst
        = percList ((fs.filter (fun f => enumerated f)).length) ∧
    List.Sorted (fun a b => a ≤ b) ((progressTrace m d fs).map Prod.fst) ∧
    ((progressTrace m d fs).map Prod.fst).all (fun p => decide (p ≤ 100)) = true ∧
    ((progressTrace m d fs).map Prod.fst).getLastD 0 = 100 ∧
    (((progressTrace m d fs).map Prod.fst).dropLast.dropLast).all
      (fun p => decide (p < 100)) = true := by
  have he := progressTrace_eq m d fs
  rw [he]
  exact ⟨rfl, percList_sorted _, percList_le _, percList_getLast _, percList_front_lt _⟩

/-- C9: the front end invokes the engine exactly when a folder path has been
selected (non-empty), the ORGANIZE FILES button was pressed, and
`os.path.isdir` holds for that path; in every other case no engine call and
no file move occurs. -/
theorem c9_frontend_gate :
    (∀ (isdir : String → Bool) (ui : UIState),
      uiInvokesEngine isdir ui = true ↔
        (ui.folder_path ≠ "" ∧ ui.organizePressed = true ∧ isdir ui.folder_path = true)) ∧
    (∀ (isdir : String → Bool) (m : Mode) (d : Bool) (fs : List FSFile) (ui : UIState),
      (ui.folder_path = "" ∨ ui.organizePressed = false ∨ isdir ui.folder_path = false) →
        uiFs isdir m d fs ui = fs ∧ uiRun isdir m d fs ui = none) := by
  constructor
  · intro isdir ui
    simp [uiInvokesEngine]
    tauto
  · intro isdir m d fs ui hcase
    have hgate : uiInvokesEngine isdir ui = false := by
      rcases hcase with h | h | h <;> simp [uiInvokesEngine, h]
    constructor
    · rw [uiFs, if_neg (by rw [hgate]; exact Bool.false_ne_true)]
    · rw [uiRun, if_neg (by rw [hgate]; exact Bool.false_ne_true)]

/-- Witness for C9: with the empty folder path the filesystem is untouched
and the engine is not invoked. -/
theorem c9_witness :
    uiFs (fun _ => true) Mode.categoryOnly true [sampleA] ⟨"", true⟩ = [sampleA] ∧
    uiRun (fun _ => true) Mode.categoryOnly true [sampleA] ⟨"", true⟩ = none :=
  c9_frontend_gate.2 (fun _ => true) Mode.categoryOnly true [sampleA] ⟨"", true⟩ (Or.inl rfl)

/-- C10: the front end's results rendering is total over analytics
dictionaries with missing fields: every field is read with its zero default
(0, 0.0, empty mapping, 0, 0), so the empty dictionary renders as all zeros,
a missing field renders as its default, and a present field renders as its
stored value. -/
theorem c10_render_defaults :
    renderTotals emptyAnalyticsDict = (0, 0, [], 0, 0) ∧
    (∀ (dict : AnalyticsDict) (v : Nat), dict.total_files = some v →
      (renderTotals dict).1 = v) ∧
    (∀ dict : AnalyticsDict, dict.total_files = none → (renderTotals dict).1 = 0) ∧
    (∀ (dict : AnalyticsDict) (v : Rat), dict.time_taken_sec = some v →
      (renderTotals dict).2.1 = v) ∧
    (∀ dict : AnalyticsDict, dict.time_taken_sec = none → (renderTotals dict).2.1 = 0) ∧
    (∀ (dict : AnalyticsDict) (v : List (String × Nat)), dict.categories = some v →
      (renderTotals dict).2.2.1 = v) ∧
    (∀ dict : AnalyticsDict, dict.categories = none → (renderTotals dict).2.2.1 = []) ∧
    (∀ (dict : AnalyticsDict) (v : Nat), dict.duplicates_removed = some v →
      (renderTotals dict).2.2.2.1 = v) ∧
    (∀ dict : AnalyticsDict, dict.duplicates_removed = none →
      (renderTotals dict).2.2.2.1 = 0) ∧
    (∀ (dict : AnalyticsDict) (v : Nat), dict.space_saved_bytes = some v →
      (renderTotals dict).2.2.2.2 = v) ∧
    (∀ dict : AnalyticsDict, dict.space_saved_bytes = none →
      (renderTotals dict).2.2.2.2 = 0) := by
  refine ⟨rfl, ?_, ?_, ?_, ?_, ?_, ?_, ?_, ?_, ?_, ?_⟩ <;>
    intro dict <;> first
      | (intro v hv; simp [renderTotals, hv])
      | (intro hv; simp [renderTotals, hv])

/-- Witness for C10 at a concrete partial dictionary. -/
theorem c10_witness :
    (renderTotals ⟨some 7, none, none, some 2, none⟩).1 = 7 ∧
    (renderTotals ⟨some 7, none, none, some 2, none⟩).2.1 = 0 :=
  ⟨c10_render_defaults.2.1 ⟨some 7, none, none, some 2, none⟩ 7 rfl,
    c10_render_defaults.2.2.2.2.1 ⟨some 7, none, none, some 2, none⟩ rfl⟩

/-- C1: for a run with duplicate detection over a root holding two files with
identical byte content, the first enumerated file is kept in its category
folder, the second is routed into the Duplicates folder, one duplicate is
counted and the saved space equals the second file's size; and in general the
duplicate tracker reports a digest as duplicate exactly when it was already
observed, records every observed digest, and keeps previously recorded
digests. -/
theorem c1_duplicate_pair_run (mode : Mode) (A B : FSFile)
    (hA : A.dir = []) (hB : B.dir = []) (hAB : B.content = A.content)
    (hrA : A.readFails = false) (hmA : A.moveFails = false)
    (hrB : B.readFails = false) (hmB : B.moveFails = false) :
    ((runState mode true [A, B]).done
        = [{ A with dir := destDir mode A }, { B with dir := [dupDirName] }] ∧
      (runState mode true [A, B]).dups = 1 ∧
      (runState mode true [A, B]).saved = fsize B) ∧
    (∀ (seen : List (List Nat)) (x : List Nat),
      ((observe seen x).1 = true ↔ x ∈ seen) ∧ x ∈ (observe seen x).2 ∧
        ∀ y ∈ seen, y ∈ (observe seen x).2) := by
  have eA : enumerated A = true := by simp [enumerated, hA]
  have eB : enumerated B = true := by simp [enumerated, hB]
  have hfilter : [A, B].filter (fun f => enumerated f) = [A, B] := by
    simp [List.filter, eA, eB]
  have hskip : [A, B].filter (fun f => !enumerated f) = [] := by
    simp [List.filter, eA, eB]
  have hfreshA : namesAt (destDir mode A) ([] ++ [B]) = [] := by
    rw [List.nil_append,
      namesAt_cons_ne _ _ _ (by rw [hB]; exact (destDir_ne_nil mode A).symm)]
    rfl
  have hstepA := stepFile_move_fresh mode true [] ([] ++ [B]) A hrA hmA
    (fun _ => List.not_mem_nil _) hfreshA (by rw [hA]; exact (destDir_ne_nil mode A).symm)
  have hfreshB : namesAt [dupDirName]
      ([{ A with dir := destDir mode A }] ++ ([] : List FSFile)) = [] := by
    rw [List.append_nil,
      namesAt_cons_ne _ _ _ (by simpa using destDir_ne_dupdir mode A)]
    rfl
  have hmemB : B.content ∈ [A.content] := by
    rw [hAB]
    exact List.mem_cons_self _ _
  have hstepB := stepFile_dup_fresh mode [A.content]
    ([{ A with dir := destDir mode A }] ++ ([] : List FSFile)) B hrB hmB hmemB hfreshB
    (by rw [hB]; simp)
  have hrun : runState mode true [A, B]
      = ⟨[{ A with dir := destDir mode A }, { B with dir := [dupDirName] }],
          [A.content],
          ["DUPLICATE: " ++ fname B ++ " -> " ++ dupDirName,
            "MOVED: " ++ fname A ++ " -> " ++ joinDirs (destDir mode A)],
          2, [(categoryName (classify A.ext), 1)], 1, 0 + fsize B, 2,
          [(100, "Completed"), (100, "Processed " ++ fname B),
            (50, "Processed " ++ fname A)]⟩ := by
    simp only [runState]
    rw [hfilter, hskip]
    simp only [processAll]
    rw [processOne_eq mode true ([A, B].length) (initState []) A [B] _ hstepA]
    rw [processOne_eq mode true ([A, B].length) _ B [] _ hstepB]
    simp [initState, bumpCat]
  refine ⟨⟨?_, ?_, ?_⟩, ?_⟩
  · rw [hrun]
  · rw [hrun]
  · rw [hrun]
    show 0 + fsize B = fsize B
    omega
  · intro seen x
    refine ⟨?_, observe_mem_snd seen x, fun y hy => observe_subset_snd seen x hy⟩
    rw [observe_fst]
    simp

/-- Witness for C1 at concrete byte-identical files. -/
theorem c1_witness :
    ((runState Mode.categoryOnly true [sampleA, sampleB]).done
        = [{ sampleA with dir := destDir Mode.categoryOnly sampleA },
            { sampleB with dir := [dupDirName] }] ∧
      (runState Mode.categoryOnly true [sampleA, sampleB]).dups = 1 ∧
      (runState Mode.categoryOnly true [sampleA, sampleB]).saved = fsize sampleB) ∧
    (∀ (seen : List (List Nat)) (x : List Nat),
      ((observe seen x).1 = true ↔ x ∈ seen) ∧ x ∈ (observe seen x).2 ∧
        ∀ y ∈ seen, y ∈ (observe seen x).2) :=
  c1_duplicate_pair_run Mode.categoryOnly sampleA sampleB rfl rfl rfl rfl rfl rfl rfl

theorem first_run_organized (mode : Mode) (dd : Bool) (fs : List FSFile)
    (H1 : ∀ f ∈ fs, f.readFails = false ∧ f.moveFails = false)
    (H2 : uniqueLocs fs) :
    (runState mode dd fs).done.Pairwise locNe ∧
    (∀ f ∈ (runState mode dd fs).done, f.readFails = false ∧ f.moveFails = false) ∧
    (∀ f ∈ (runState mode dd fs).done, enumerated f = true → f.dir = destDir mode f) ∧
    (dd = true → (runState mode dd fs).done.Pairwise condContentNe) := by
  have hperm1 : ((initState (fs.filter (fun f => !enumerated f))).done
      ++ fs.filter (fun f => enumerated f)).Perm fs :=
    List.Perm.trans List.perm_append_comm (List.filter_append_perm _ fs)
  have hP0 : ((initState (fs.filter (fun f => !enumerated f))).done
      ++ fs.filter (fun f => enumerated f)).Pairwise locNe :=
    (List.Perm.pairwise_iff (fun h => locNe_symm h) hperm1).mpr H2
  have hflags0 : ∀ f ∈ (initState (fs.filter (fun f => !enumerated f))).done
      ++ fs.filter (fun f => enumerated f), f.readFails = false ∧ f.moveFails = false := by
    intro f hf
    rcases List.mem_append.mp hf with h | h
    · exact H1 f (List.mem_of_mem_filter h)
    · exact H1 f (List.mem_of_mem_filter h)
  have hdone0 : ∀ f ∈ (initState (fs.filter (fun f => !enumerated f))).done,
      enumerated f = true → f.dir = destDir mode f := by
    intro f hf he
    have hb := (List.mem_filter.mp hf).2
    rw [he] at hb
    simp at hb
  have hseen0 : dd = true → ∀ f ∈ (initState (fs.filter (fun f => !enumerated f))).done,
      enumerated f = true → f.content ∈ (initState (fs.filter (fun f => !enumerated f))).seen := by
    intro _ f hf he
    have hb := (List.mem_filter.mp hf).2
    rw [he] at hb
    simp at hb
  have hcond0 : dd = true →
      (initState (fs.filter (fun f => !enumerated f))).done.Pairwise condContentNe := by
    intro _
    refine List.pairwise_of_forall_mem_list ?_
    intro a ha b hb hea heb
    have hba := (List.mem_filter.mp ha).2
    rw [hea] at hba
    simp at hba
  have hpost := processAll_organizes mode dd ((fs.filter (fun f => enumerated f)).length)
    (fs.filter (fun f => enumerated f)) (initState (fs.filter (fun f => !enumerated f)))
    hP0 hflags0 hdone0 hseen0 hcond0
  obtain ⟨p1, p2, p3, _, p5⟩ := hpost
  rw [runState_done]
  exact ⟨p1, p2, p3, p5⟩

theorem second_run_noop (mode : Mode) (dd : Bool) (fs1 : List FSFile)
    (hP1 : fs1.Pairwise locNe)
    (hflags1 : ∀ f ∈ fs1, f.readFails = false ∧ f.moveFails = false)
    (hdest1 : ∀ f ∈ fs1, enumerated f = true → f.dir = destDir mode f)
    (hcond1 : dd = true → fs1.Pairwise condContentNe) :
    (runState mode dd fs1).moves = 0 ∧
    (runState mode dd fs1).total = (fs1.filter (fun f => enumerated f)).length ∧
    (runState mode dd fs1).done.Perm fs1 := by
  have hperm2 : ((initState (fs1.filter (fun f => !enumerated f))).done
      ++ fs1.filter (fun f => enumerated f)).Perm fs1 :=
    List.Perm.trans List.perm_append_comm (List.filter_append_perm _ fs1)
  have hP0 : ((initState (fs1.filter (fun f => !enumerated f))).done
      ++ fs1.filter (fun f => enumerated f)).Pairwise locNe :=
    (List.Perm.pairwise_iff (fun h => locNe_symm h) hperm2).mpr hP1
  have htodo2 : ∀ f ∈ fs1.filter (fun f => enumerated f),
      f.readFails = false ∧ f.moveFails = false ∧ f.dir = destDir mode f := by
    intro f hf
    obtain ⟨hmem, he⟩ := List.mem_filter.mp hf
    exact ⟨(hflags1 f hmem).1, (hflags1 f hmem).2, hdest1 f hmem he⟩
  have hdist2 : dd = true →
      (fs1.filter (fun f => enumerated f)).Pairwise (fun f g => f.content ≠ g.content) := by
    intro hd
    refine List.Pairwise.imp_of_mem ?_ ((hcond1 hd).filter (fun f => enumerated f))
    intro a b ha hb hR
    exact hR (List.mem_filter.mp ha).2 (List.mem_filter.mp hb).2
  have hseen2 : dd = true → ∀ f ∈ fs1.filter (fun f => enumerated f),
      f.content ∉ (initState (fs1.filter (fun f => !enumerated f))).seen := by
    intro _ f _ hmem
    exact absurd hmem (List.not_mem_nil _)
  obtain ⟨hdone2, hmoves2, _⟩ := processAll_inplace mode dd
    ((fs1.filter (fun f => enumerated f)).length) (fs1.filter (fun f => enumerated f))
    (initState (fs1.filter (fun f => !enumerated f))) hP0 htodo2 hdist2 hseen2
  refine ⟨?_, runState_total mode dd fs1, ?_⟩
  · rw [runState_moves, hmoves2]
    rfl
  · rw [runState_done, hdone2]
    exact hperm2

/-- C3: running the engine twice over the same root with the same mode is
idempotent: after a first error-free run over a well-formed root (no two
files at the same location), the second run performs zero relocations, still
processes every file in the root (its total equals the enumerated file
count), and leaves the filesystem unchanged up to enumeration order. -/
theorem c3_idempotent_second_run (mode : Mode) (dd : Bool) (fs : List FSFile)
    (H1 : ∀ f ∈ fs, f.readFails = false ∧ f.moveFails = false)
    (H2 : uniqueLocs fs) :
    (runState mode dd (runFs mode dd true fs)).moves = 0 ∧
    (runState mode dd (runFs mode dd true fs)).total
      = ((runFs mode dd true fs).filter (fun f => enumerated f)).length ∧
    (runState mode dd (runFs mode dd true fs)).done.Perm (runFs mode dd true fs) := by
  have hfs : runFs mode dd true fs = (runState mode dd fs).done := by
    rw [runFs, if_pos rfl]
  obtain ⟨p1, p2, p3, p4⟩ := first_run_organized mode dd fs H1 H2
  rw [hfs]
  exact second_run_noop mode dd ((runState mode dd fs).done) p1 p2 p3 p4

/-- Witness for C3 at a concrete two-file root. -/
theorem c3_witness :
    (runState Mode.categoryOnly true
        (runFs Mode.categoryOnly true true [sampleA, sampleB])).moves = 0 ∧
    (runState Mode.categoryOnly true
        (runFs Mode.categoryOnly true true [sampleA, sampleB])).total
      = ((runFs Mode.categoryOnly true true [sampleA, sampleB]).filter
          (fun f => enumerated f)).length ∧
    (runState Mode.categoryOnly true
        (runFs Mode.categoryOnly true true [sampleA, sampleB])).done.Perm
      (runFs Mode.categoryOnly true true [sampleA, sampleB]) :=
  c3_idempotent_second_run Mode.categoryOnly true [sampleA, sampleB] (by decide) (by decide)

end FileOrg
